import Mathlib

/-!
Verification of the preprocessing toolkit (`jack/util/preprocessing.py`) and
the training hooks (`quebap/sisyphos/hooks.py`) against their specification.

The Python code is shallowly embedded: pure functions become Lean functions,
the in-place mutation of the `Vocab` object becomes explicit state passing,
and Python exceptions become `Except PyErr` results.  The external `Vocab`
class (`jack/util/vocab.py` is not part of the sources) is modelled from the
specification's description of the Vocabulary abstraction.
-/

set_option maxHeartbeats 1000000

/-- Python exception classes that the embedded code can raise. -/
inductive PyErr where
  | assertionError
  | valueError
  | keyError
  | indexError
  deriving DecidableEq, Repr

/-- Python `dict` lookup `d.get(k)` / `d[k]` on an insertion-ordered
association list. -/
def dictGet {κ α : Type} [BEq κ] (d : List (κ × α)) (k : κ) : Option α :=
  (d.find? (fun p => p.1 == k)).map (fun p => p.2)

/-- Python regex `\w`: a word character (letter, digit or underscore). -/
def isWordChar (c : Char) : Bool :=
  c.isAlphanum || c == '_'

/-- Python regex `\s`: a whitespace character. -/
def isPySpace (c : Char) : Bool :=
  c.isWhitespace

/-- Scanner realising `re.findall('\w+|[^\w\s]', text)`: at each position,
a maximal run of word characters is one token, a single non-word
non-whitespace character is one token, and whitespace is skipped.  The fuel
argument (instantiated with the length of the list in `scanTok`) makes the
recursion structural. -/
def scanTokFuel : Nat → List Char → List (List Char)
  | 0, _ => []
  | _, [] => []
  | fuel + 1, c :: rest =>
    if isWordChar c then
      (c :: rest.takeWhile isWordChar) :: scanTokFuel fuel (rest.dropWhile isWordChar)
    else if isPySpace c then
      scanTokFuel fuel rest
    else
      [c] :: scanTokFuel fuel rest

/-- Leftmost-longest regex scan of a character list. -/
def scanTok (l : List Char) : List (List Char) :=
  scanTokFuel l.length l

/-- `tokenize(text)` from `jack/util/preprocessing.py`: `__pattern.findall(text)`
with `__pattern = re.compile('\w+|[^\w\s]')`. -/
def tokenize (text : String) : List String :=
  (scanTok text.data).map (fun l => String.mk l)


/-- `pat` occurs in `text` starting at character index `i`. -/
def substrAt (text pat : List Char) (i : Nat) : Bool :=
  (text.drop i).take pat.length == pat

/-- Python `text.index(pat, start)`: index of the first occurrence of `pat`
in `text` at or after `start`; `none` models the `ValueError` raised when
there is no such occurrence. -/
def strIndexFrom (text pat : String) (start : Nat) : Option Nat :=
  ((List.range (text.data.length + 1)).filter
    (fun i => decide (start ≤ i) && substrAt text.data pat.data i)).head?

/-- Cursor-threading loop of `token_to_char_offsets`. -/
def tokenOffsetsGo (text : String) : List String → Nat → Except PyErr (List Nat)
  | [], _ => .ok []
  | t :: ts, offset =>
    match strIndexFrom text t offset with
    | none => .error .valueError
    | some o => (tokenOffsetsGo text ts (o + t.length)).map (fun os => o :: os)

/-- `token_to_char_offsets(text, tokenized_text)` from
`jack/util/preprocessing.py`: scan cursor starts at 0; each token is located
with `text.index(t, offset)`, its position recorded, and the cursor advanced
past the end of the match. -/
def token_to_char_offsets (text : String) (tokenized_text : List String) :
    Except PyErr (List Nat) :=
  tokenOffsetsGo text tokenized_text 0

/-- A Python value used as a token: either a string (surface or lemma form)
or an integer (spacy's hashed lemma id, produced by `t.lemma` when
`lemmatize` is set). -/
inductive Tok where
  | str (s : String)
  | num (n : Int)
  deriving DecidableEq, Repr

instance : BEq Tok := instBEqOfDecidableEq

/-- A token object of the external spacy pipeline, with its surface form
`orth_`, its lemma string `lemma_`, its hashed lemma id `lemma`, and its
character start offset `idx`. -/
structure SpacyToken where
  orth_ : String
  lemmaStr : String
  lemmaId : Int
  idx : Nat
  deriving DecidableEq, Repr

/-- Modelled from the spec: the external Vocabulary abstraction
(`jack/util/vocab.py` is not part of the sources) — a bidirectional mapping
between symbols and ids with a frozen lifecycle flag, an optional
unknown-symbol sentinel, and a reverse `id2sym` mapping from id to symbol. -/
structure Vocab where
  frozen : Bool
  sym2id : List (Tok × Int)
  id2sym : List (Nat × String)
  unk : Option Tok
  deriving DecidableEq, Repr

/-- Modelled from the spec: lookup-or-register of a single symbol — a known
symbol keeps its id; an unknown symbol is registered with the next free id
while the vocabulary is unfrozen, and maps to the sentinel id `-1`
otherwise. -/
def Vocab.addSym (v : Vocab) (t : Tok) : Int × Vocab :=
  match dictGet v.sym2id t with
  | some i => (i, v)
  | none =>
    if v.frozen then (-1, v)
    else
      let i : Int := v.sym2id.length
      (i, { v with
              sym2id := v.sym2id ++ [(t, i)],
              id2sym := v.id2sym ++
                (match t with
                 | .str s => [(v.sym2id.length, s)]
                 | .num _ => []) })

/-- Modelled from the spec: the lookup-or-register operation `vocab(tokens)`,
mapping a sequence of symbols to a parallel sequence of ids and threading the
(possibly grown) vocabulary state. -/
def Vocab.call (v : Vocab) : List Tok → List Int × Vocab
  | [] => ([], v)
  | t :: ts =>
    let p := v.addSym t
    let q := p.2.call ts
    (p.1 :: q.1, q.2)

/-- Modelled from the spec: `vocab.normalize(id)` maps any id to a canonical
non-negative id. -/
def Vocab.normalize (v : Vocab) (i : Int) : Int :=
  if 0 ≤ i then i else (v.sym2id.length : Int) + i

/-- The result tuple `(tokens, ids, length, lemmas or None, token_offsets or
None)` of `nlp_preprocess`. -/
structure TokenRecord where
  tokens : List Tok
  ids : List Int
  length : Nat
  lemmas : Option (List String)
  token_offsets : Option (List Nat)
  deriving DecidableEq, Repr

/-- `nlp_preprocess(text, vocab, lowercase, lemmatize, with_lemmas,
with_tokens_offsets, spacy_nlp)` from `jack/util/preprocessing.py`.  The
external spacy pipeline `spacy.load("en", ...)` is the parameter `snlp`; the
in-place mutation of `vocab` is threaded explicitly; an error result carries
the vocabulary state at the point the exception is raised. -/
def nlp_preprocess (snlp : String → List SpacyToken) (text : String)
    (vocab : Vocab) (lowercase lemmatize with_lemmas with_tokens_offsets
    spacy_nlp : Bool) : Except (PyErr × Vocab) (TokenRecord × Vocab) :=
  if with_lemmas && !spacy_nlp then .error (.assertionError, vocab)
  else if lemmatize && !spacy_nlp then .error (.assertionError, vocab)
  else
    let text := if lowercase then text.toLower else text
    let branch : Except PyErr (List Tok × Option (List String) × Option (List Nat)) :=
      if spacy_nlp then
        let stoks := snlp text
        let lemmas := if with_lemmas then some (stoks.map SpacyToken.lemmaStr) else none
        let token_offsets := if with_tokens_offsets then some (stoks.map SpacyToken.idx) else none
        let tokens := if lemmatize then stoks.map (fun t => Tok.num t.lemmaId)
                      else stoks.map (fun t => Tok.str t.orth_)
        .ok (tokens, lemmas, token_offsets)
      else
        let toks := tokenize text
        let tokens := toks.map Tok.str
        if with_tokens_offsets then
          match token_to_char_offsets text toks with
          | .error e => .error e
          | .ok offs => .ok (tokens, none, some offs)
        else .ok (tokens, none, none)
    match branch with
    | .error e => .error (e, vocab)
    | .ok (tokens, lemmas, token_offsets) =>
      let length := tokens.length
      let p := vocab.call tokens
      let ids := if !p.2.frozen then p.1.map p.2.normalize else p.1
      .ok (⟨tokens, ids, length, lemmas, token_offsets⟩, p.2)

/-- One question-answering example: a question text and its own ordered list
of supporting passages. -/
structure QASetting where
  question : String
  support : List String
  deriving DecidableEq, Repr

/-- The collection object passed as `qa_settings`.  Iterating it yields its
`settings`; `nlp_preprocess_all` additionally reads a `support` attribute off
the collection object itself (`qa_settings.support`), so the duck-typed
argument must also carry a passage sequence of its own. -/
structure QASettings where
  settings : List QASetting
  support : List String
  deriving DecidableEq, Repr

/-- Inner support loop of `fill_vocab` (`for s in qa_setting.support`). -/
def fillVocabSupportGo (snlp : String → List SpacyToken)
    (lowercase lemmatize spacy_nlp : Bool) :
    List String → Vocab → Except (PyErr × Vocab) Vocab
  | [], v => .ok v
  | s :: rest, v =>
    match nlp_preprocess snlp s v lowercase lemmatize false false spacy_nlp with
    | .error e => .error e
    | .ok (_, v1) => fillVocabSupportGo snlp lowercase lemmatize spacy_nlp rest v1

/-- Loop body of `fill_vocab`: processes each setting's question and each of
the setting's own support passages, threading the vocabulary. -/
def fillVocabGo (snlp : String → List SpacyToken)
    (lowercase lemmatize spacy_nlp : Bool) :
    List QASetting → Vocab → Except (PyErr × Vocab) Vocab
  | [], v => .ok v
  | qa :: rest, v =>
    match nlp_preprocess snlp qa.question v lowercase lemmatize false false spacy_nlp with
    | .error e => .error e
    | .ok (_, v1) =>
      match fillVocabSupportGo snlp lowercase lemmatize spacy_nlp qa.support v1 with
      | .error e => .error e
      | .ok v2 => fillVocabGo snlp lowercase lemmatize spacy_nlp rest v2

/-- `fill_vocab(qa_settings, vocab=None, lowercase=False, lemmatize=False,
spacy_nlp=False)` from `jack/util/preprocessing.py`: creates a fresh unfrozen
vocabulary with no unknown sentinel when none is given, asserts the
vocabulary is not frozen, then registers every token of every question and
every (per-setting) support passage. -/
def fill_vocab (snlp : String → List SpacyToken) (qa_settings : List QASetting)
    (vocab : Option Vocab) (lowercase lemmatize spacy_nlp : Bool) :
    Except (PyErr × Vocab) Vocab :=
  let v := vocab.getD { frozen := false, sym2id := [], id2sym := [], unk := none }
  if v.frozen then .error (.assertionError, v)
  else fillVocabGo snlp lowercase lemmatize spacy_nlp qa_settings v

/-- Inner support loop of `nlp_preprocess_all`
(`for s in qa_settings.support`): one processed record per element of the
shared passage sequence of the collection object. -/
def npAllSupportGo (snlp : String → List SpacyToken)
    (lowercase lemmatize spacy_nlp : Bool) :
    List String → Vocab → Except (PyErr × Vocab) (List TokenRecord × Vocab)
  | [], v => .ok ([], v)
  | s :: rest, v =>
    match nlp_preprocess snlp s v lowercase lemmatize false false spacy_nlp with
    | .error e => .error e
    | .ok (r, v1) =>
      match npAllSupportGo snlp lowercase lemmatize spacy_nlp rest v1 with
      | .error e => .error e
      | .ok (rs, v2) => .ok (r :: rs, v2)

/-- Outer loop of `nlp_preprocess_all`: for each setting, process its
question, then process the collection object's shared `support` sequence. -/
def npAllGo (snlp : String → List SpacyToken) (sharedSupport : List String)
    (lowercase lemmatize spacy_nlp : Bool) :
    List QASetting → Vocab →
    Except (PyErr × Vocab) ((List TokenRecord × List (List TokenRecord)) × Vocab)
  | [], v => .ok (([], []), v)
  | qa :: rest, v =>
    match nlp_preprocess snlp qa.question v lowercase lemmatize false false spacy_nlp with
    | .error e => .error e
    | .ok (qr, v1) =>
      match npAllSupportGo snlp lowercase lemmatize spacy_nlp sharedSupport v1 with
      | .error e => .error e
      | .ok (srs, v2) =>
        match npAllGo snlp sharedSupport lowercase lemmatize spacy_nlp rest v2 with
        | .error e => .error e
        | .ok ((qs, ss), v3) => .ok ((qr :: qs, srs :: ss), v3)

/-- `nlp_preprocess_all(qa_settings, vocab, lowercase, lemmatize, with_lemmas,
with_tokens_offsets, spacy_nlp)` from `jack/util/preprocessing.py`.  Note that
the calls to `nlp_preprocess` forward only `lowercase`, `lemmatize` and
`spacy_nlp` (so `with_lemmas` and `with_tokens_offsets` keep their `False`
defaults), and the inner loop iterates `qa_settings.support` — the shared
passage sequence of the collection object — for every setting. -/
def nlp_preprocess_all (snlp : String → List SpacyToken) (qa_settings : QASettings)
    (vocab : Vocab) (lowercase lemmatize with_lemmas with_tokens_offsets
    spacy_nlp : Bool) :
    Except (PyErr × Vocab) ((List TokenRecord × List (List TokenRecord)) × Vocab) :=
  if vocab.frozen then .error (.assertionError, vocab)
  else npAllGo snlp qa_settings.support lowercase lemmatize spacy_nlp
    qa_settings.settings vocab

/-- `transpose_dict_of_lists(dict_of_lists, keys)` from
`jack/util/preprocessing.py`: one record (mapping, in `keys` order) per index
of the first key's sequence.  `keys[0]` on an empty key list raises
`IndexError`, a missing dict key raises `KeyError`, and indexing a shorter
sequence raises `IndexError`. -/
def transpose_dict_of_lists {α : Type} (dict_of_lists : List (String × List α))
    (keys : List String) : Except PyErr (List (List (String × α))) :=
  match keys with
  | [] => .error .indexError
  | k0 :: _ =>
    match dictGet dict_of_lists k0 with
    | none => .error .keyError
    | some l0 =>
      (List.range l0.length).mapM (fun i =>
        keys.mapM (fun k =>
          match dictGet dict_of_lists k with
          | none => Except.error PyErr.keyError
          | some l =>
            match l.get? i with
            | none => Except.error PyErr.indexError
            | some x => Except.ok (k, x)))

/-- Python `char_vocab[c] = len(char_vocab)` guarded by
`if c not in char_vocab`: insertion into the insertion-ordered dict. -/
def charVocabInsert (cv : List (String × Nat)) (c : Char) : List (String × Nat) :=
  if cv.any (fun p => p.1 == String.mk [c]) then cv
  else cv ++ [(String.mk [c], cv.length)]

/-- `max(vocab.id2sym.keys())` over a non-empty dict. -/
def vocabMaxKey (id2sym : List (Nat × String)) : Nat :=
  id2sym.foldl (fun m p => max m p.1) 0

/-- `char_vocab_from_vocab(vocab)` from `jack/util/preprocessing.py`: starts
the character dict with `"PAD" -> 0`, then scans `vocab.id2sym` from id 0 up
to its maximum known id, inserting each not-yet-present character with the
current dict size as its id.  `max()` on an empty dict raises `ValueError`. -/
def char_vocab_from_vocab (vocab : Vocab) : Except PyErr (List (String × Nat)) :=
  match vocab.id2sym with
  | [] => .error .valueError
  | _ =>
    .ok ((List.range (vocabMaxKey vocab.id2sym + 1)).foldl
      (fun cv i =>
        match dictGet vocab.id2sym i with
        | none => cv
        | some w => w.data.foldl charVocabInsert cv)
      [("PAD", 0)])

/-- A rectangular numpy array of integers, as a nesting tree: a rank-0 array
is a leaf scalar and a rank-(n+1) array is a node of rank-n slices. -/
inductive Tensor where
  | leaf (x : Int)
  | node (ts : List Tensor)

/-- `value.shape` of a (rectangular) array. -/
def Tensor.shape : Tensor → List Nat
  | .leaf _ => []
  | .node [] => [0]
  | .node (t :: ts) => (ts.length + 1) :: t.shape

/-- An array of the given shape filled with the constant `pad`. -/
def Tensor.full (pad : Int) : List Nat → Tensor
  | [] => .leaf pad
  | n :: rest => .node (List.replicate n (Tensor.full pad rest))

mutual

/-- `np.lib.pad(value, pad_width, mode='constant', constant_values=pad)` with
`pad_width = [(0, sh[i] - value.shape[i]) for i]`: right-pads each dimension
of `value` up to the target shape `sh` with the constant `pad`. -/
def Tensor.padTo (pad : Int) : Tensor → List Nat → Tensor
  | t, [] => t
  | .leaf x, _ :: _ => .leaf x
  | .node ts, n :: rest =>
    .node (Tensor.padListTo pad ts rest ++
      List.replicate (n - ts.length) (Tensor.full pad rest))

/-- Pads every slice of a node to the target sub-shape. -/
def Tensor.padListTo (pad : Int) : List Tensor → List Nat → List Tensor
  | [], _ => []
  | t :: ts, sh => Tensor.padTo pad t sh :: Tensor.padListTo pad ts sh

end

/-- `[max(sizes) for sizes in zip(*[v.shape for v in values])]`: per-dimension
maximum size, truncated (as `zip` is) to the shortest rank present. -/
def max_shape (shapes : List (List Nat)) : List Nat :=
  let minLen := shapes.foldl (fun m s => min m s.length)
    ((shapes.head?.map List.length).getD 0)
  (List.range minLen).map (fun i => shapes.foldl (fun m s => max m (s.getD i 0)) 0)

/-- A Python element of the `values` argument of `stack_and_pad`: a plain
number or a numpy array. -/
inductive NPValue where
  | num (x : Int)
  | arr (t : Tensor)

/-- The result of `stack_and_pad`: either the flat `np.array(values)` of
plain numbers, or the stacked batch array. -/
inductive NPResult where
  | flat (xs : List Int)
  | stacked (t : Tensor)

/-- `stack_and_pad(values, pad=0)` from `jack/util/preprocessing.py`.  When
`values[0]` is a plain number the list is returned as `np.array(values)` (a
mixed list would make numpy fail).  Otherwise the per-dimension maximum shape
is computed over all values, `pad_width` indexes `max_shape[i]` for
`i in range(dims)` with `dims = len(values[0].shape)` (an `IndexError` when
some value has smaller rank, and a numpy `ValueError` when `pad_width` does
not match some value's rank), every value is right-padded with `pad` and the
padded values are stacked along a new leading dimension. -/
def stack_and_pad (values : List NPValue) (pad : Int) : Except PyErr NPResult :=
  match values with
  | [] => .error .indexError
  | NPValue.num _ :: _ =>
    match values.mapM (fun v => match v with
        | NPValue.num x => some x
        | NPValue.arr _ => none) with
    | some xs => .ok (.flat xs)
    | none => .error .valueError
  | NPValue.arr t0 :: _ =>
    match values.mapM (fun v => match v with
        | NPValue.num _ => none
        | NPValue.arr t => some t) with
    | none => .error .valueError
    | some ts =>
      let dims := t0.shape.length
      let maxShape := max_shape (ts.map Tensor.shape)
      if dims ≤ maxShape.length then
        if ts.all (fun t => t.shape.length == dims) then
          .ok (.stacked (.node (Tensor.padListTo pad ts (maxShape.take dims))))
        else .error .valueError
      else .error .indexError

/-- The mutable state of a `LossHook` (`quebap/sisyphos/hooks.py`): interval
length, batch size, accumulated loss, iteration counter.  The float loss is
modelled by a rational. -/
structure LossHookState where
  iter_interval : Nat
  batch_size : ℚ
  acc_loss : ℚ
  iter : Nat
  deriving DecidableEq, Repr

/-- `LossHook.__call__(sess, epoch, model, loss)`: increments the iteration
counter, accumulates `loss / batch_size`, and when the counter is a nonzero
multiple of the interval reports the mean `acc_loss / iter_interval` (printed
and forwarded under the `"Loss"` tag, returned here as `some`) and resets the
accumulator. -/
def lossHookCall (s : LossHookState) (loss : ℚ) : LossHookState × Option ℚ :=
  let iter := s.iter + 1
  let acc := s.acc_loss + loss / s.batch_size
  if iter ≠ 0 ∧ iter % s.iter_interval = 0 then
    ({ s with iter := iter, acc_loss := 0 }, some (acc / (s.iter_interval : ℚ)))
  else
    ({ s with iter := iter, acc_loss := acc }, none)

/-- The mutable state of an `AccuracyHook` (`quebap/sisyphos/hooks.py`):
evaluation cadence in epochs, the done-for-this-epoch flag, and the iteration
counter.  The fixed evaluation batches, the prediction and target handles and
the session are external; only when the full evaluation pass runs depends on
this state. -/
structure AccuracyHookState where
  at_every_epoch : Nat
  done_for_epoch : Bool
  iter : Nat
  deriving DecidableEq, Repr

/-- `AccuracyHook.__call__(sess, epoch, model, loss)`: increments the
iteration counter; when `epoch % at_every_epoch == 0` and the done-flag is
clear, performs the full evaluation pass (an external `sess.run` loop,
modelled as the returned flag `true`) and sets the done-flag; when the epoch
does not qualify, clears the done-flag.  The returned `Bool` records whether
the evaluation pass ran on this call. -/
def accuracyHookCall (s : AccuracyHookState) (epoch : Nat) :
    AccuracyHookState × Bool :=
  let s1 := { s with iter := s.iter + 1 }
  if epoch % s1.at_every_epoch = 0 then
    if !s1.done_for_epoch then
      ({ s1 with done_for_epoch := true }, true)
    else (s1, false)
  else ({ s1 with done_for_epoch := false }, false)

/-- Number of full evaluation passes performed over a sequence of calls with
the given epoch numbers, starting from state `s`. -/
def accuracyHookRuns (s : AccuracyHookState) : List Nat → Nat
  | [] => 0
  | e :: es =>
    let p := accuracyHookCall s e
    (if p.2 then 1 else 0) + accuracyHookRuns p.1 es

/-- Specification of the default tokenization, following the spec's words:
the token list of a character sequence consists, in left-to-right order, of
the maximal runs of word characters and of each single non-word
non-whitespace character, with all whitespace discarded. -/
inductive TokSpec : List Char → List (List Char) → Prop where
  | nil : TokSpec [] []
  | ws {c : Char} {rest : List Char} {toks : List (List Char)} :
      isPySpace c = true → TokSpec rest toks → TokSpec (c :: rest) toks
  | word {run rest : List Char} {toks : List (List Char)} :
      run ≠ [] → (∀ c ∈ run, isWordChar c = true) →
      (∀ c, rest.head? = some c → isWordChar c = false) →
      TokSpec rest toks → TokSpec (run ++ rest) (run :: toks)
  | punct {c : Char} {rest : List Char} {toks : List (List Char)} :
      isWordChar c = false → isPySpace c = false →
      TokSpec rest toks → TokSpec (c :: rest) ([c] :: toks)

lemma head_dropWhile_not {p : Char → Bool} {l : List Char} {c : Char}
    (h : (l.dropWhile p).head? = some c) : p c = false := by
  induction l with
  | nil => simp at h
  | cons a t ih =>
    rw [List.dropWhile_cons] at h
    by_cases hp : p a
    · simp [hp] at h; exact ih h
    · simp [hp] at h
      rw [← h]
      simpa using hp

lemma scanTokFuel_spec : ∀ (fuel : Nat) (s : List Char), s.length ≤ fuel →
    TokSpec s (scanTokFuel fuel s) := by
  intro fuel
  induction fuel with
  | zero =>
    intro s hs
    have : s = [] := List.eq_nil_of_length_eq_zero (Nat.le_zero.mp hs)
    subst this
    exact TokSpec.nil
  | succ fuel ih =>
    intro s hs
    match s with
    | [] => exact TokSpec.nil
    | c :: rest =>
      have hrest : rest.length ≤ fuel := Nat.le_of_succ_le_succ hs
      by_cases hw : isWordChar c
      · have hdw : (rest.dropWhile isWordChar).length ≤ fuel :=
          le_trans (List.dropWhile_sublist isWordChar).length_le hrest
        have hspec := ih (rest.dropWhile isWordChar) hdw
        have hsplit : c :: rest =
            (c :: rest.takeWhile isWordChar) ++ rest.dropWhile isWordChar := by
          simp [List.takeWhile_append_dropWhile]
        rw [show scanTokFuel (fuel + 1) (c :: rest) =
            (c :: rest.takeWhile isWordChar) ::
              scanTokFuel fuel (rest.dropWhile isWordChar) by
          simp [scanTokFuel, hw]]
        rw [hsplit]
        refine TokSpec.word (by simp) ?_ ?_ hspec
        · intro x hx
          rcases List.mem_cons.mp hx with h | h
          · rw [h]; exact hw
          · exact List.mem_takeWhile_imp h
        · intro x hx
          exact head_dropWhile_not hx
      · by_cases hsp : isPySpace c
        · rw [show scanTokFuel (fuel + 1) (c :: rest) = scanTokFuel fuel rest by
            simp [scanTokFuel, hw, hsp]]
          exact TokSpec.ws hsp (ih rest hrest)
        · rw [show scanTokFuel (fuel + 1) (c :: rest) =
              [c] :: scanTokFuel fuel rest by
            simp [scanTokFuel, hw, hsp]]
          exact TokSpec.punct (by simpa using hw) (by simpa using hsp)
            (ih rest hrest)

/-- Claim C10: the default tokenizer maps `"Hello, world!"` to exactly
`["Hello", ",", "world", "!"]`, and on every input string it returns, in
left-to-right order, the maximal runs of word characters and each single
non-word non-whitespace character, with all whitespace discarded. -/
theorem C10_default_tokenizer :
    tokenize "Hello, world!" = ["Hello", ",", "world", "!"] ∧
    ∀ s : String, TokSpec s.data ((tokenize s).map String.data) := by
  constructor
  · decide
  · intro s
    have : (tokenize s).map String.data = scanTok s.data := by
      simp only [tokenize, List.map_map]
      exact List.map_id' (scanTok s.data)
    rw [this]
    exact scanTokFuel_spec s.data.length s.data le_rfl

/-- Claim C9: a `LossHook` with interval 2 and batch size 1, called three
times with losses 2, 4, 6, reports nothing on the first call, reports the
mean loss 3 on the second call and resets its accumulator to 0, and on the
third call reports nothing, holding an accumulated loss of 6. -/
theorem C9_lossHook_periodic_report :
    (lossHookCall ⟨2, 1, 0, 0⟩ 2).2 = none ∧
    (lossHookCall (lossHookCall ⟨2, 1, 0, 0⟩ 2).1 4).2 = some 3 ∧
    (lossHookCall (lossHookCall ⟨2, 1, 0, 0⟩ 2).1 4).1.acc_loss = 0 ∧
    (lossHookCall (lossHookCall (lossHookCall ⟨2, 1, 0, 0⟩ 2).1 4).1 6).2 = none ∧
    (lossHookCall (lossHookCall (lossHookCall ⟨2, 1, 0, 0⟩ 2).1 4).1 6).1.acc_loss = 6 := by
  refine ⟨?_, ?_, ?_, ?_, ?_⟩ <;> norm_num [lossHookCall]

/-- The two concrete input arrays of claim C8: shape (2,3) holding 1..6 and
shape (4,1) holding 7..10. -/
def c8ArrA : Tensor :=
  .node [.node [.leaf 1, .leaf 2, .leaf 3], .node [.leaf 4, .leaf 5, .leaf 6]]

def c8ArrB : Tensor :=
  .node [.node [.leaf 7], .node [.leaf 8], .node [.leaf 9], .node [.leaf 10]]

/-- Claim C8: `stack_and_pad` on the two arrays of shapes (2,3) and (4,1)
with pad value 0 returns one array of shape (2,4,3) whose slices hold each
input's values in the top-left region and 0 elsewhere; and on the plain
number list [1,2,3] it returns the flat one-dimensional array [1,2,3]. -/
theorem C8_stack_and_pad :
    stack_and_pad [.arr c8ArrA, .arr c8ArrB] 0 =
      .ok (.stacked (.node
        [.node [.node [.leaf 1, .leaf 2, .leaf 3],
                .node [.leaf 4, .leaf 5, .leaf 6],
                .node [.leaf 0, .leaf 0, .leaf 0],
                .node [.leaf 0, .leaf 0, .leaf 0]],
         .node [.node [.leaf 7, .leaf 0, .leaf 0],
                .node [.leaf 8, .leaf 0, .leaf 0],
                .node [.leaf 9, .leaf 0, .leaf 0],
                .node [.leaf 10, .leaf 0, .leaf 0]]])) ∧
    (Tensor.node
        [.node [.node [.leaf 1, .leaf 2, .leaf 3],
                .node [.leaf 4, .leaf 5, .leaf 6],
                .node [.leaf 0, .leaf 0, .leaf 0],
                .node [.leaf 0, .leaf 0, .leaf 0]],
         .node [.node [.leaf 7, .leaf 0, .leaf 0],
                .node [.leaf 8, .leaf 0, .leaf 0],
                .node [.leaf 9, .leaf 0, .leaf 0],
                .node [.leaf 10, .leaf 0, .leaf 0]]]).shape = [2, 4, 3] ∧
    stack_and_pad [.num 1, .num 2, .num 3] 0 = .ok (.flat [1, 2, 3]) :=
  ⟨rfl, rfl, rfl⟩

/-- Claim C3 counterexample: transposing a column mapping whose first listed
field holds the empty sequence does not raise any error — it returns the
empty record list. -/
theorem C3_counterexample :
    transpose_dict_of_lists [("a", ([] : List Nat))] ["a"] = Except.ok [] ∧
    ∀ e : PyErr,
      transpose_dict_of_lists [("a", ([] : List Nat))] ["a"] ≠ Except.error e := by
  refine ⟨rfl, ?_⟩
  intro e h
  rw [show transpose_dict_of_lists [("a", ([] : List Nat))] ["a"] = Except.ok []
    from rfl] at h
  exact Except.noConfusion h

/-- Claim C3 (amended): whenever the sequence stored under the first listed
field name is empty, `transpose_dict_of_lists` returns the empty record list
(the record count is the length of that sequence, and a zero count yields
zero records rather than an error). -/
theorem C3_amended {α : Type} (d : List (String × List α)) (k : String)
    (ks : List String) (h : dictGet d k = some []) :
    transpose_dict_of_lists d (k :: ks) = .ok [] := by
  simp only [transpose_dict_of_lists, h, List.length_nil, List.range_zero,
    List.mapM_nil]
  rfl

/-- Claim C3 witness: the amended statement at the concrete input
`{"a": []}` with field list `["a"]`. -/
theorem C3_witness :
    transpose_dict_of_lists [("a", ([] : List Nat))] ["a"] = .ok [] :=
  C3_amended [("a", ([] : List Nat))] "a" [] (by decide)

/-- Claim C1 counterexample: an `AccuracyHook` with cadence 1, called twice
at epoch 0 and then once at epoch 1, performs the evaluation pass on the
first call only; the call at the later epoch does not perform the pass
(the done-flag is never reset when every epoch qualifies), contradicting the
claim that the pass runs again when the epoch changes. -/
theorem C1_counterexample :
    (accuracyHookCall ⟨1, false, 0⟩ 0).2 = true ∧
    (accuracyHookCall (accuracyHookCall ⟨1, false, 0⟩ 0).1 0).2 = false ∧
    (accuracyHookCall (accuracyHookCall (accuracyHookCall ⟨1, false, 0⟩ 0).1 0).1 1).2
      = false := by
  decide

lemma accuracyHookCall_of_done (s : AccuracyHookState) (e : Nat)
    (h1 : s.at_every_epoch = 1) (hd : s.done_for_epoch = true) :
    accuracyHookCall s e = ({ s with iter := s.iter + 1 }, false) := by
  simp [accuracyHookCall, h1, Nat.mod_one, hd]

lemma accuracyHookCall_of_not_done (s : AccuracyHookState) (e : Nat)
    (h1 : s.at_every_epoch = 1) (hd : s.done_for_epoch = false) :
    accuracyHookCall s e =
      ({ s with iter := s.iter + 1, done_for_epoch := true }, true) := by
  simp [accuracyHookCall, h1, Nat.mod_one, hd]

lemma accuracyHookRuns_zero_of_done (es : List Nat) :
    ∀ s : AccuracyHookState, s.at_every_epoch = 1 → s.done_for_epoch = true →
    accuracyHookRuns s es = 0 := by
  induction es with
  | nil => intro s _ _; rfl
  | cons e es ih =>
    intro s h1 hd
    show (if (accuracyHookCall s e).2 then 1 else 0) +
      accuracyHookRuns (accuracyHookCall s e).1 es = 0
    rw [accuracyHookCall_of_done s e h1 hd]
    simpa using ih { s with iter := s.iter + 1 } h1 hd

/-- Claim C1 (amended): with cadence 1, an `AccuracyHook` performs the full
evaluation pass at most once over any sequence of calls, whatever the epoch
numbers: the first call with a clear done-flag performs the pass, and since
every epoch qualifies at cadence 1 the done-flag is never reset, so no later
call — same epoch or any later epoch — performs the pass again. -/
theorem C1_amended (s : AccuracyHookState) (es : List Nat)
    (h1 : s.at_every_epoch = 1) :
    accuracyHookRuns s es ≤ 1 ∧
    (s.done_for_epoch = false → ∀ e : Nat, (accuracyHookCall s e).2 = true) := by
  constructor
  · match es with
    | [] => exact Nat.zero_le 1
    | e :: es =>
      show (if (accuracyHookCall s e).2 then 1 else 0) +
        accuracyHookRuns (accuracyHookCall s e).1 es ≤ 1
      by_cases hd : s.done_for_epoch = true
      · rw [accuracyHookCall_of_done s e h1 hd]
        simp [accuracyHookRuns_zero_of_done es { s with iter := s.iter + 1 } h1 hd]
      · have hd' : s.done_for_epoch = false := by simpa using hd
        rw [accuracyHookCall_of_not_done s e h1 hd']
        simp [accuracyHookRuns_zero_of_done es
          { s with iter := s.iter + 1, done_for_epoch := true } h1 rfl]
  · intro hd e
    rw [accuracyHookCall_of_not_done s e h1 hd]

/-- Claim C1 witness: the amended statement for a fresh hook with cadence 1
over the call sequence of the counterexample (epochs 0, 0, 1). -/
theorem C1_witness :
    accuracyHookRuns ⟨1, false, 0⟩ [0, 0, 1] ≤ 1 ∧
    ((⟨1, false, 0⟩ : AccuracyHookState).done_for_epoch = false →
      ∀ e : Nat, (accuracyHookCall ⟨1, false, 0⟩ e).2 = true) :=
  C1_amended ⟨1, false, 0⟩ [0, 0, 1] rfl

lemma strIndexFrom_some {text pat : String} {start o : Nat}
    (h : strIndexFrom text pat start = some o) :
    start ≤ o ∧ substrAt text.data pat.data o = true := by
  have hmem := List.mem_of_mem_head? h
  have hp := (List.mem_filter.mp hmem).2
  simp only [Bool.and_eq_true, decide_eq_true_eq] at hp
  exact hp

lemma tokenOffsetsGo_spec (text : String) :
    ∀ (ts : List String) (start : Nat) (offs : List Nat),
    tokenOffsetsGo text ts start = .ok offs →
    offs.length = ts.length ∧ (∀ o ∈ offs, start ≤ o) ∧
    List.Chain' (· ≤ ·) offs ∧
    ∀ (k : Nat) (t : String) (o : Nat), ts.get? k = some t →
      offs.get? k = some o → (text.data.drop o).take t.length = t.data := by
  intro ts
  induction ts with
  | nil =>
    intro start offs h
    cases h
    refine ⟨rfl, by simp, by simp, ?_⟩
    intro k t o ht
    simp at ht
  | cons t ts ih =>
    intro start offs h
    cases hfind : strIndexFrom text t start with
    | none =>
      simp only [tokenOffsetsGo, hfind] at h
      exact Except.noConfusion h
    | some o =>
      simp only [tokenOffsetsGo, hfind] at h
      cases hrest : tokenOffsetsGo text ts (o + t.length) with
      | error e =>
        rw [hrest] at h
        simp only [Except.map] at h
        exact Except.noConfusion h
      | ok os =>
        rw [hrest] at h
        simp only [Except.map] at h
        injection h with h
        subst h
        obtain ⟨hstart, hsub⟩ := strIndexFrom_some hfind
        obtain ⟨hlen, hlb, hch, hidx⟩ := ih (o + t.length) os hrest
        refine ⟨by simpa using hlen, ?_, ?_, ?_⟩
        · intro x hx
          rcases List.mem_cons.mp hx with h | h
          · rw [h]; exact hstart
          · exact le_trans (le_trans hstart (Nat.le_add_right o t.length)) (hlb x h)
        · rw [List.chain'_cons']
          refine ⟨?_, hch⟩
          intro y hy
          exact le_trans (Nat.le_add_right o t.length)
            (hlb y (List.mem_of_mem_head? hy))
        · intro k u x hu hx
          match k with
          | 0 =>
            simp only [List.get?] at hu hx
            cases hu; cases hx
            have hsub' : (text.data.drop o).take t.data.length = t.data := by
              simp only [substrAt, beq_iff_eq] at hsub
              exact hsub
            exact hsub'
          | k + 1 =>
            exact hidx k u x (by simpa using hu) (by simpa using hx)

/-- Claim C5: for text `"the cat sat"` and tokens `["the","cat","sat"]`,
`token_to_char_offsets` returns `[0,4,8]`; and whenever the scan succeeds
(each token is found at or after the cursor left by the previous one) the
returned offsets are one per token, non-decreasing, and the substring of the
text starting at each offset with the token's length is that token. -/
theorem C5_token_offsets :
    token_to_char_offsets "the cat sat" ["the", "cat", "sat"] = .ok [0, 4, 8] ∧
    ∀ (text : String) (toks : List String) (offs : List Nat),
      token_to_char_offsets text toks = .ok offs →
      offs.length = toks.length ∧ List.Chain' (· ≤ ·) offs ∧
      ∀ (k : Nat) (t : String) (o : Nat), toks.get? k = some t →
        offs.get? k = some o → (text.data.drop o).take t.length = t.data := by
  constructor
  · rfl
  · intro text toks offs h
    obtain ⟨hlen, _, hch, hidx⟩ := tokenOffsetsGo_spec text toks 0 offs h
    exact ⟨hlen, hch, hidx⟩

/-- Claim C6: calling `fill_vocab` or `nlp_preprocess_all` with a frozen
vocabulary fails immediately with the assertion error, for any (non-empty)
input collection, and the vocabulary carried by the error is the unchanged
input vocabulary. -/
theorem C6_frozen_vocab_rejected (snlp : String → List SpacyToken)
    (qs : QASettings) (v : Vocab) (lc lm wl wto sp : Bool)
    (hf : v.frozen = true) (hne : qs.settings ≠ []) :
    fill_vocab snlp qs.settings (some v) lc lm sp =
      .error (.assertionError, v) ∧
    nlp_preprocess_all snlp qs v lc lm wl wto sp =
      .error (.assertionError, v) := by
  constructor
  · simp [fill_vocab, hf]
  · simp [nlp_preprocess_all, hf]

/-- Claim C6 witness: a frozen vocabulary and a one-setting collection. -/
theorem C6_witness :
    fill_vocab (fun _ => []) [⟨"q", ["s"]⟩] (some ⟨true, [], [], none⟩)
      false false false = .error (.assertionError, ⟨true, [], [], none⟩) ∧
    nlp_preprocess_all (fun _ => []) ⟨[⟨"q", ["s"]⟩], ["t"]⟩
      ⟨true, [], [], none⟩ false false false false false =
      .error (.assertionError, ⟨true, [], [], none⟩) :=
  C6_frozen_vocab_rejected (fun _ => []) ⟨[⟨"q", ["s"]⟩], ["t"]⟩
    ⟨true, [], [], none⟩ false false false false false rfl (by decide)

lemma nlp_preprocess_default_flags (snlp : String → List SpacyToken)
    (text : String) (v : Vocab) (lc lm sp : Bool) (r : TokenRecord) (v' : Vocab)
    (h : nlp_preprocess snlp text v lc lm false false sp = .ok (r, v')) :
    r.lemmas = none ∧ r.token_offsets = none := by
  unfold nlp_preprocess at h
  split at h
  · exact Except.noConfusion h
  · split at h
    · exact Except.noConfusion h
    · simp only [Bool.false_eq_true, if_false] at h
      by_cases hsp : sp = true
      · simp only [hsp, if_true] at h
        injection h with h
        injection h with h1 h2
        rw [← h1]
        exact ⟨rfl, rfl⟩
      · simp only [hsp, if_false] at h
        injection h with h
        injection h with h1 h2
        rw [← h1]
        exact ⟨rfl, rfl⟩

lemma npAllSupportGo_records (snlp : String → List SpacyToken)
    (lc lm sp : Bool) :
    ∀ (texts : List String) (v : Vocab) (rs : List TokenRecord) (v2 : Vocab),
    npAllSupportGo snlp lc lm sp texts v = .ok (rs, v2) →
    ∀ r ∈ rs, r.lemmas = none ∧ r.token_offsets = none := by
  intro texts
  induction texts with
  | nil =>
    intro v rs v2 h r hr
    cases h
    simp at hr
  | cons t ts ih =>
    intro v rs v2 h r hr
    cases h1 : nlp_preprocess snlp t v lc lm false false sp with
    | error e =>
      simp only [npAllSupportGo, h1] at h
      exact Except.noConfusion h
    | ok p =>
      obtain ⟨r1, v1⟩ := p
      simp only [npAllSupportGo, h1] at h
      cases h2 : npAllSupportGo snlp lc lm sp ts v1 with
      | error e =>
        simp only [h2] at h
        exact Except.noConfusion h
      | ok w =>
        obtain ⟨rs1, v21⟩ := w
        simp only [h2] at h
        injection h with h
        injection h with hl hv
        rw [← hl] at hr
        rcases List.mem_cons.mp hr with hh | hh
        · rw [hh]
          exact nlp_preprocess_default_flags snlp t v lc lm sp r1 v1 h1
        · exact ih v1 rs1 v21 h2 r hh

lemma npAllGo_records (snlp : String → List SpacyToken)
    (sharedSupport : List String) (lc lm sp : Bool) :
    ∀ (settings : List QASetting) (v : Vocab)
    (q : List TokenRecord) (s : List (List TokenRecord)) (v2 : Vocab),
    npAllGo snlp sharedSupport lc lm sp settings v = .ok ((q, s), v2) →
    (∀ r ∈ q, r.lemmas = none ∧ r.token_offsets = none) ∧
    (∀ l ∈ s, ∀ r ∈ l, r.lemmas = none ∧ r.token_offsets = none) := by
  intro settings
  induction settings with
  | nil =>
    intro v q s v2 h
    cases h
    constructor
    · intro r hr; simp at hr
    · intro l hl; simp at hl
  | cons qa rest ih =>
    intro v q s v2 h
    cases h1 : nlp_preprocess snlp qa.question v lc lm false false sp with
    | error e =>
      simp only [npAllGo, h1] at h
      exact Except.noConfusion h
    | ok p =>
      obtain ⟨qr, v1⟩ := p
      simp only [npAllGo, h1] at h
      cases h2 : npAllSupportGo snlp lc lm sp sharedSupport v1 with
      | error e =>
        simp only [h2] at h
        exact Except.noConfusion h
      | ok w =>
        obtain ⟨srs, vw⟩ := w
        simp only [h2] at h
        cases h3 : npAllGo snlp sharedSupport lc lm sp rest vw with
        | error e =>
          simp only [h3] at h
          exact Except.noConfusion h
        | ok u =>
          obtain ⟨⟨uq, us⟩, uv⟩ := u
          simp only [h3] at h
          injection h with h
          injection h with hqs hv
          injection hqs with hq hs
          obtain ⟨ihq, ihs⟩ := ih vw uq us uv h3
          constructor
          · intro r hr
            rw [← hq] at hr
            rcases List.mem_cons.mp hr with hh | hh
            · rw [hh]
              exact nlp_preprocess_default_flags snlp qa.question v lc lm sp
                qr v1 h1
            · exact ihq r hh
          · intro l hl
            rw [← hs] at hl
            rcases List.mem_cons.mp hl with hh | hh
            · rw [hh]
              exact npAllSupportGo_records snlp lc lm sp sharedSupport v1
                srs vw h2
            · exact ihs l hh

/-- Claim C4: whatever the input collection, vocabulary and flags (including
`with_lemmas`, `with_tokens_offsets` and `spacy_nlp`), every token record
returned by `nlp_preprocess_all` has an absent lemmas component and an absent
token-offsets component, because the per-text calls forward neither
`with_lemmas` nor `with_tokens_offsets`. -/
theorem C4_no_lemmas_no_offsets (snlp : String → List SpacyToken)
    (qs : QASettings) (v : Vocab) (lc lm wl wto sp : Bool)
    (q : List TokenRecord) (s : List (List TokenRecord)) (v2 : Vocab)
    (h : nlp_preprocess_all snlp qs v lc lm wl wto sp = .ok ((q, s), v2)) :
    (∀ r ∈ q, r.lemmas = none ∧ r.token_offsets = none) ∧
    (∀ l ∈ s, ∀ r ∈ l, r.lemmas = none ∧ r.token_offsets = none) := by
  unfold nlp_preprocess_all at h
  split at h
  · exact Except.noConfusion h
  · exact npAllGo_records snlp qs.support lc lm sp qs.settings v q s v2 h

/-- The characters dict invariant: the padding entry sits first with id 0,
ids are exactly the positions 0, 1, ..., N-1 in insertion order, and keys are
pairwise distinct. -/
def CharVocabInv (cv : List (String × Nat)) : Prop :=
  cv.head? = some ("PAD", 0) ∧
  cv.map Prod.snd = List.range cv.length ∧
  (cv.map Prod.fst).Nodup

lemma charVocabInsert_inv {cv : List (String × Nat)} (c : Char)
    (h : CharVocabInv cv) : CharVocabInv (charVocabInsert cv c) := by
  obtain ⟨hhead, hids, hnd⟩ := h
  unfold charVocabInsert
  by_cases hc : cv.any (fun p => p.1 == String.mk [c])
  · rw [if_pos hc]
    exact ⟨hhead, hids, hnd⟩
  · rw [if_neg hc]
    refine ⟨?_, ?_, ?_⟩
    · cases cv with
      | nil => simp at hhead
      | cons a t => simpa using hhead
    · rw [List.map_append, hids, List.length_append]
      simp [List.range_succ]
    · rw [List.map_append]
      rw [List.nodup_append]
      refine ⟨hnd, List.nodup_singleton _, ?_⟩
      intro a ha hb
      simp only [List.map_cons, List.map_nil, List.mem_singleton] at hb
      subst hb
      obtain ⟨p, hp, hp1⟩ := List.mem_map.mp ha
      apply hc
      rw [List.any_eq_true]
      exact ⟨p, hp, by rw [hp1]; exact beq_self_eq_true _⟩

lemma wordFold_inv (cs : List Char) :
    ∀ cv : List (String × Nat), CharVocabInv cv →
    CharVocabInv (cs.foldl charVocabInsert cv) := by
  induction cs with
  | nil => intro cv h; exact h
  | cons c cs ih =>
    intro cv h
    exact ih _ (charVocabInsert_inv c h)

lemma cvFold_inv (d : List (Nat × String)) (L : List Nat) :
    ∀ cv : List (String × Nat), CharVocabInv cv →
    CharVocabInv (L.foldl (fun cv i =>
      match dictGet d i with
      | none => cv
      | some w => w.data.foldl charVocabInsert cv) cv) := by
  induction L with
  | nil => intro cv h; exact h
  | cons i L ih =>
    intro cv h
    cases hd : dictGet d i with
    | none => simpa [hd] using ih cv h
    | some w => simpa [hd] using ih _ (wordFold_inv w.data cv h)

lemma charVocabInsert_mem {cv : List (String × Nat)} {k : String} (c : Char)
    (h : k ∈ cv.map Prod.fst) : k ∈ (charVocabInsert cv c).map Prod.fst := by
  unfold charVocabInsert
  by_cases hc : cv.any (fun p => p.1 == String.mk [c])
  · rw [if_pos hc]; exact h
  · rw [if_neg hc]
    rw [List.map_append]
    exact List.mem_append_left _ h

lemma charVocabInsert_mem_self (cv : List (String × Nat)) (c : Char) :
    String.mk [c] ∈ (charVocabInsert cv c).map Prod.fst := by
  unfold charVocabInsert
  by_cases hc : cv.any (fun p => p.1 == String.mk [c])
  · rw [if_pos hc]
    obtain ⟨p, hp, hpe⟩ := List.any_eq_true.mp hc
    exact List.mem_map.mpr ⟨p, hp, eq_of_beq hpe⟩
  · rw [if_neg hc]
    rw [List.map_append]
    exact List.mem_append_right _ (by simp)

lemma wordFold_mem (cs : List Char) :
    ∀ (cv : List (String × Nat)) (k : String), k ∈ cv.map Prod.fst →
    k ∈ (cs.foldl charVocabInsert cv).map Prod.fst := by
  induction cs with
  | nil => intro cv k h; exact h
  | cons c cs ih =>
    intro cv k h
    exact ih _ k (charVocabInsert_mem c h)

lemma wordFold_mem_char (cs : List Char) :
    ∀ (cv : List (String × Nat)) (c : Char), c ∈ cs →
    String.mk [c] ∈ (cs.foldl charVocabInsert cv).map Prod.fst := by
  induction cs with
  | nil => intro cv c h; simp at h
  | cons c0 cs ih =>
    intro cv c h
    rcases List.mem_cons.mp h with h | h
    · subst h
      exact wordFold_mem cs _ _ (charVocabInsert_mem_self cv c)
    · exact ih _ c h

lemma cvFold_mem (d : List (Nat × String)) (L : List Nat) :
    ∀ (cv : List (String × Nat)) (k : String), k ∈ cv.map Prod.fst →
    k ∈ (L.foldl (fun cv i =>
      match dictGet d i with
      | none => cv
      | some w => w.data.foldl charVocabInsert cv) cv).map Prod.fst := by
  induction L with
  | nil => intro cv k h; exact h
  | cons i L ih =>
    intro cv k h
    cases hd : dictGet d i with
    | none => simpa [hd] using ih cv k h
    | some w => simpa [hd] using ih _ k (wordFold_mem w.data cv k h)

lemma cvFold_coverage (d : List (Nat × String)) :
    ∀ (L : List Nat) (cv : List (String × Nat)) (i : Nat) (w : String)
    (c : Char), i ∈ L → dictGet d i = some w → c ∈ w.data →
    String.mk [c] ∈ (L.foldl (fun cv i =>
      match dictGet d i with
      | none => cv
      | some w => w.data.foldl charVocabInsert cv) cv).map Prod.fst := by
  intro L
  induction L with
  | nil => intro cv i w c hi; simp at hi
  | cons j L ih =>
    intro cv i w c hi hw hc
    rcases List.mem_cons.mp hi with h | h
    · subst h
      simp only [List.foldl_cons, hw]
      exact cvFold_mem d L _ _ (wordFold_mem_char w.data cv c hc)
    · cases hd : dictGet d j with
      | none => simpa [hd] using ih cv i w c h hw hc
      | some u => simpa [hd] using ih _ i w c h hw hc

lemma foldl_max_le (l : List (Nat × String)) :
    ∀ m : Nat, m ≤ l.foldl (fun a p => max a p.1) m := by
  induction l with
  | nil => intro m; exact le_rfl
  | cons p l ih =>
    intro m
    exact le_trans (Nat.le_max_left m p.1) (ih (max m p.1))

lemma mem_le_foldl_max (l : List (Nat × String)) (i : Nat) (w : String) :
    ∀ m : Nat, (i, w) ∈ l → i ≤ l.foldl (fun a p => max a p.1) m := by
  induction l with
  | nil => intro m h; simp at h
  | cons p l ih =>
    intro m h
    rcases List.mem_cons.mp h with h | h
    · rw [← h]
      exact le_trans (Nat.le_max_right m i) (foldl_max_le l (max m i))
    · exact ih (max m p.1) h

lemma dictGet_of_mem_nodup {d : List (Nat × String)} {i : Nat} {w : String}
    (hnd : (d.map Prod.fst).Nodup) (h : (i, w) ∈ d) : dictGet d i = some w := by
  induction d with
  | nil => simp at h
  | cons p d ih =>
    rcases List.mem_cons.mp h with hh | hh
    · rw [← hh]
      simp [dictGet]
    · by_cases hpi : p.1 = i
      · exfalso
        have : i ∈ d.map Prod.fst := List.mem_map.mpr ⟨(i, w), hh, rfl⟩
        rw [← hpi] at this
        exact (List.nodup_cons.mp hnd).1 this
      · have := ih (List.nodup_cons.mp hnd).2 hh
        simpa [dictGet, hpi] using this

lemma head_pad_dictGet {cv : List (String × Nat)}
    (h : cv.head? = some ("PAD", 0)) : dictGet cv "PAD" = some 0 := by
  cases cv with
  | nil => simp at h
  | cons a t =>
    simp only [List.head?_cons, Option.some.injEq] at h
    subst h
    simp [dictGet]

lemma inv_pos_of_ne_pad {cv : List (String × Nat)} (hinv : CharVocabInv cv) :
    ∀ p ∈ cv, p.1 ≠ "PAD" → 0 < p.2 := by
  obtain ⟨hhead, hids, _⟩ := hinv
  intro p hp hne
  obtain ⟨⟨k, hk⟩, hget⟩ := List.mem_iff_get.mp hp
  have hsnd : p.2 = k := by
    have h1 : (cv.map Prod.snd).get? k = some p.2 := by
      rw [List.get?_map, List.get?_eq_get hk, hget]
      rfl
    rw [hids, List.get?_range (by simpa using hk)] at h1
    exact (Option.some.injEq _ _ ▸ h1).symm
  match k, hk with
  | 0, hk =>
    exfalso
    have : cv.get ⟨0, hk⟩ = ("PAD", 0) := by
      cases cv with
      | nil => simp at hk
      | cons a t => simpa using hhead
    rw [this] at hget
    exact hne (by rw [← hget])
  | k + 1, hk =>
    rw [hsnd]
    exact Nat.succ_pos k

/-- Claim C7: for every word vocabulary whose reverse id-to-symbol dict is
non-empty (with distinct ids), the derived character vocabulary maps `"PAD"`
to exactly id 0, all assigned ids are exactly the contiguous range
`[0, N-1]` in insertion order (hence every non-PAD key has a unique id
greater than 0), and every character of every stored symbol is present. -/
theorem C7_char_vocab_invariant (v : Vocab) (hne : v.id2sym ≠ [])
    (hnd : (v.id2sym.map Prod.fst).Nodup) (cv : List (String × Nat))
    (h : char_vocab_from_vocab v = .ok cv) :
    dictGet cv "PAD" = some 0 ∧
    cv.map Prod.snd = List.range cv.length ∧
    (cv.map Prod.fst).Nodup ∧
    (∀ p ∈ cv, p.1 ≠ "PAD" → 0 < p.2) ∧
    (∀ p ∈ v.id2sym, ∀ c ∈ p.2.data, String.mk [c] ∈ cv.map Prod.fst) := by
  have hcv : cv = (List.range (vocabMaxKey v.id2sym + 1)).foldl
      (fun cv i =>
        match dictGet v.id2sym i with
        | none => cv
        | some w => w.data.foldl charVocabInsert cv)
      [("PAD", 0)] := by
    unfold char_vocab_from_vocab at h
    split at h
    · exact Except.noConfusion h
    · injection h with h
      exact h.symm
  have hinv0 : CharVocabInv [("PAD", 0)] := by
    refine ⟨rfl, by decide, by simp⟩
  have hinv : CharVocabInv cv := by
    rw [hcv]
    exact cvFold_inv v.id2sym _ [("PAD", 0)] hinv0
  obtain ⟨hhead, hids, hndcv⟩ := hinv
  refine ⟨head_pad_dictGet hhead, hids, hndcv, inv_pos_of_ne_pad ⟨hhead, hids, hndcv⟩, ?_⟩
  intro p hp c hc
  obtain ⟨i, w⟩ := p
  have hi : i ∈ List.range (vocabMaxKey v.id2sym + 1) := by
    rw [List.mem_range]
    exact Nat.lt_succ_of_le (mem_le_foldl_max v.id2sym i w 0 hp)
  rw [hcv]
  exact cvFold_coverage v.id2sym _ [("PAD", 0)] i w c hi
    (dictGet_of_mem_nodup hnd hp) hc

/-- Claim C7 witness: the invariant at the concrete vocabulary whose reverse
dict is `{0: "ab"}`, whose character vocabulary is
`[("PAD",0), ("a",1), ("b",2)]`. -/
theorem C7_witness :
    dictGet [("PAD", 0), ("a", 1), ("b", 2)] "PAD" = some 0 ∧
    ([("PAD", 0), ("a", 1), ("b", 2)] : List (String × Nat)).map Prod.snd =
      List.range ([("PAD", 0), ("a", 1), ("b", 2)] : List (String × Nat)).length ∧
    (([("PAD", 0), ("a", 1), ("b", 2)] : List (String × Nat)).map Prod.fst).Nodup ∧
    (∀ p ∈ ([("PAD", 0), ("a", 1), ("b", 2)] : List (String × Nat)),
      p.1 ≠ "PAD" → 0 < p.2) ∧
    (∀ p ∈ (⟨false, [], [(0, "ab")], none⟩ : Vocab).id2sym, ∀ c ∈ p.2.data,
      String.mk [c] ∈ ([("PAD", 0), ("a", 1), ("b", 2)] :
        List (String × Nat)).map Prod.fst) :=
  C7_char_vocab_invariant ⟨false, [], [(0, "ab")], none⟩ (by decide)
    (by decide) [("PAD", 0), ("a", 1), ("b", 2)] rfl

lemma npAllGo_questions (snlp : String → List SpacyToken) (sup : List String)
    (lc lm sp : Bool) :
    ∀ (s1 s2 : List QASetting),
    s1.map QASetting.question = s2.map QASetting.question →
    ∀ v : Vocab, npAllGo snlp sup lc lm sp s1 v = npAllGo snlp sup lc lm sp s2 v := by
  intro s1
  induction s1 with
  | nil =>
    intro s2 h v
    have hs2 : s2 = [] := by
      cases s2 with
      | nil => rfl
      | cons b t => simp at h
    subst hs2
    rfl
  | cons a s1 ih =>
    intro s2 h v
    match s2 with
    | [] => simp at h
    | b :: s2 =>
      simp only [List.map_cons, List.cons.injEq] at h
      obtain ⟨h1, h2⟩ := h
      simp only [npAllGo, h1, ih s2 h2]

lemma npAllSupportGo_length (snlp : String → List SpacyToken)
    (lc lm sp : Bool) :
    ∀ (texts : List String) (v : Vocab) (rs : List TokenRecord) (v2 : Vocab),
    npAllSupportGo snlp lc lm sp texts v = .ok (rs, v2) →
    rs.length = texts.length := by
  intro texts
  induction texts with
  | nil =>
    intro v rs v2 h
    cases h
    rfl
  | cons t ts ih =>
    intro v rs v2 h
    cases h1 : nlp_preprocess snlp t v lc lm false false sp with
    | error e =>
      simp only [npAllSupportGo, h1] at h
      exact Except.noConfusion h
    | ok p =>
      obtain ⟨r1, v1⟩ := p
      simp only [npAllSupportGo, h1] at h
      cases h2 : npAllSupportGo snlp lc lm sp ts v1 with
      | error e =>
        simp only [h2] at h
        exact Except.noConfusion h
      | ok w =>
        obtain ⟨rs1, v21⟩ := w
        simp only [h2] at h
        injection h with h
        injection h with hl hv
        rw [← hl]
        simpa using ih v1 rs1 v21 h2

lemma npAllGo_shape (snlp : String → List SpacyToken) (sup : List String)
    (lc lm sp : Bool) :
    ∀ (settings : List QASetting) (v : Vocab)
    (q : List TokenRecord) (s : List (List TokenRecord)) (v2 : Vocab),
    npAllGo snlp sup lc lm sp settings v = .ok ((q, s), v2) →
    s.length = settings.length ∧ ∀ l ∈ s, l.length = sup.length := by
  intro settings
  induction settings with
  | nil =>
    intro v q s v2 h
    cases h
    exact ⟨rfl, by intro l hl; simp at hl⟩
  | cons qa rest ih =>
    intro v q s v2 h
    cases h1 : nlp_preprocess snlp qa.question v lc lm false false sp with
    | error e =>
      simp only [npAllGo, h1] at h
      exact Except.noConfusion h
    | ok p =>
      obtain ⟨qr, v1⟩ := p
      simp only [npAllGo, h1] at h
      cases h2 : npAllSupportGo snlp lc lm sp sup v1 with
      | error e =>
        simp only [h2] at h
        exact Except.noConfusion h
      | ok w =>
        obtain ⟨srs, vw⟩ := w
        simp only [h2] at h
        cases h3 : npAllGo snlp sup lc lm sp rest vw with
        | error e =>
          simp only [h3] at h
          exact Except.noConfusion h
        | ok u =>
          obtain ⟨⟨uq, us⟩, uv⟩ := u
          simp only [h3] at h
          injection h with h
          injection h with hqs hv
          injection hqs with hq hs
          obtain ⟨ih1, ih2⟩ := ih vw uq us uv h3
          rw [← hs]
          constructor
          · simpa using ih1
          · intro l hl
            rcases List.mem_cons.mp hl with hh | hh
            · rw [hh]
              exact npAllSupportGo_length snlp lc lm sp sup v1 srs vw h2
            · exact ih2 l hh

/-- Claim C2: the inner support loop of `nlp_preprocess_all` iterates the
collection object's shared `support` sequence (`qa_settings.support`), not
each setting's own support list: the result is invariant under arbitrary
changes to the settings' own support lists (given equal questions and equal
shared support), and on success each setting contributes one processed
support list whose length is the shared sequence's length. -/
theorem C2_shared_support_iteration (snlp : String → List SpacyToken)
    (qs qs' : QASettings) (v : Vocab) (lc lm wl wto sp : Bool)
    (hsup : qs.support = qs'.support)
    (hq : qs.settings.map QASetting.question =
      qs'.settings.map QASetting.question) :
    nlp_preprocess_all snlp qs v lc lm wl wto sp =
      nlp_preprocess_all snlp qs' v lc lm wl wto sp ∧
    ∀ (q : List TokenRecord) (s : List (List TokenRecord)) (v2 : Vocab),
      nlp_preprocess_all snlp qs v lc lm wl wto sp = .ok ((q, s), v2) →
      s.length = qs.settings.length ∧ ∀ l ∈ s, l.length = qs.support.length := by
  constructor
  · unfold nlp_preprocess_all
    rw [← hsup]
    exact if_congr Iff.rfl rfl
      (npAllGo_questions snlp qs.support lc lm sp qs.settings qs'.settings hq v)
  · intro q s v2 h
    unfold nlp_preprocess_all at h
    split at h
    · exact Except.noConfusion h
    · exact npAllGo_shape snlp qs.support lc lm sp qs.settings v q s v2 h

/-- Claim C2 witness: two collections sharing the support sequence `["c"]`
and the single question `"a b"` but with different per-setting support lists
(`["zz"]` versus `[]`) yield identical results, of the stated shape. -/
theorem C2_witness :
    nlp_preprocess_all (fun _ => []) ⟨[⟨"a b", ["zz"]⟩], ["c"]⟩
      ⟨false, [], [], none⟩ false false false false false =
    nlp_preprocess_all (fun _ => []) ⟨[⟨"a b", []⟩], ["c"]⟩
      ⟨false, [], [], none⟩ false false false false false ∧
    ∀ (q : List TokenRecord) (s : List (List TokenRecord)) (v2 : Vocab),
      nlp_preprocess_all (fun _ => []) ⟨[⟨"a b", ["zz"]⟩], ["c"]⟩
        ⟨false, [], [], none⟩ false false false false false = .ok ((q, s), v2) →
      s.length = 1 ∧ ∀ l ∈ s, l.length = 1 :=
  C2_shared_support_iteration (fun _ => []) ⟨[⟨"a b", ["zz"]⟩], ["c"]⟩
    ⟨[⟨"a b", []⟩], ["c"]⟩ ⟨false, [], [], none⟩ false false false false false
    rfl rfl

/-- Claim C4 witness: a concrete run — one setting with question `"a b"`
(and its own support list `["zz"]`, which is ignored), shared support
`["c"]`, fresh unfrozen vocabulary, `with_lemmas` and `with_tokens_offsets`
both requested — returns records whose lemmas and offsets are absent. -/
theorem C4_witness :
    (∀ r ∈ [({ tokens := [Tok.str "a", Tok.str "b"], ids := [0, 1], length := 2,
               lemmas := none, token_offsets := none } : TokenRecord)],
      r.lemmas = none ∧ r.token_offsets = none) ∧
    (∀ l ∈ [[({ tokens := [Tok.str "c"], ids := [2], length := 1,
                lemmas := none, token_offsets := none } : TokenRecord)]],
      ∀ r ∈ l, r.lemmas = none ∧ r.token_offsets = none) :=
  C4_no_lemmas_no_offsets (fun _ => []) ⟨[⟨"a b", ["zz"]⟩], ["c"]⟩
    ⟨false, [], [], none⟩ false false true true false
    [{ tokens := [Tok.str "a", Tok.str "b"], ids := [0, 1], length := 2,
       lemmas := none, token_offsets := none }]
    [[{ tokens := [Tok.str "c"], ids := [2], length := 1,
        lemmas := none, token_offsets := none }]]
    ⟨false, [(Tok.str "a", 0), (Tok.str "b", 1), (Tok.str "c", 2)],
      [(0, "a"), (1, "b"), (2, "c")], none⟩
    rfl

/-- Claim C5 witness: the general offset properties instantiated at the
concrete text `"the cat sat"`, tokens `["the","cat","sat"]` and result
`[0,4,8]`. -/
theorem C5_witness :
    ([0, 4, 8] : List Nat).length = (["the", "cat", "sat"] : List String).length ∧
    List.Chain' (· ≤ ·) ([0, 4, 8] : List Nat) ∧
    ∀ (k : Nat) (t : String) (o : Nat),
      (["the", "cat", "sat"] : List String).get? k = some t →
      ([0, 4, 8] : List Nat).get? k = some o →
      (("the cat sat" : String).data.drop o).take t.length = t.data :=
  C5_token_offsets.2 "the cat sat" ["the", "cat", "sat"] [0, 4, 8]
    C5_token_offsets.1
